import Mathlib

/-!
A shallow embedding of `shell.c`.

The C program is an interactive shell: `main` reads one line per iteration through
`processing_input`, which tokenizes it in place inside the 80-byte `command` buffer
(or recalls the history line), and hands the pointer array `args` to `execution`,
which forks the children, applies redirection or builds a two-process pipeline.

Modelling choices.

* A C `char` is a Lean `Char`; a C string stored in a buffer is read from an offset up
  to the first NUL (`cstr`).  A `char*` into `command` is the offset it points at,
  `NULL` is `none`.
* Buffers are lists of bytes.  Writing past `MAX_LINE` bytes or reading an array at a
  negative index is undefined behaviour in C; the embedding returns `none` there
  (or the child event `undefined` when it happens in a forked child).
* System calls are events of a trace.  Whether `pipe`, `fork`, `open` and `execvp`
  succeed is decided by an environment `Env`.
-/

namespace Shell

/-! ## C strings and the library functions used by the program -/

/-- The maximum length command (`#define MAX_LINE 80`). -/
def MAX_LINE : Nat := 80

/-- Number of slots of `char *args[MAX_LINE / 2 + 1]`. -/
def ARGS_LEN : Nat := MAX_LINE / 2 + 1

/-- The string terminator. -/
def NUL : Char := Char.ofNat 0

/-- The C string that starts at offset `p` of `buf`: the bytes up to the first NUL. -/
def cstr (buf : List Char) (p : Nat) : List Char :=
  (buf.drop p).takeWhile (fun c => c != NUL)

/-- The byte at offset `p` (a buffer is always NUL terminated, so the byte after its
last one reads as NUL). -/
def byteAt (buf : List Char) (p : Nat) : Char :=
  (buf.drop p).headD NUL

/-- ISO C `strspn`, on the string at offset `s`: length of the initial segment made of
bytes of `accept`. -/
def strspn (buf : List Char) (s : Nat) (accept : List Char) : Nat :=
  ((cstr buf s).takeWhile (fun c => accept.contains c)).length

/-- ISO C `strcspn`, on the string at offset `s`: length of the initial segment made of
bytes not in `reject`. -/
def strcspn (buf : List Char) (s : Nat) (reject : List Char) : Nat :=
  ((cstr buf s).takeWhile (fun c => !reject.contains c)).length

/-- ISO C `strcpy(dst, src)` into a buffer of `MAX_LINE` bytes: the bytes of `src` and
the terminator overwrite the start of `dst`, the other bytes stay.  A string that
does not fit overruns the buffer: undefined. -/
def strcpy (dst : List Char) (src : List Char) : Option (List Char) :=
  if src.length < MAX_LINE then some (src ++ NUL :: dst.drop (src.length + 1)) else none

/-- ISO C `strtok`, with its saved position made explicit.  `s` is the position the
scan starts from (the start of the string for a first call, the saved position for
`strtok(NULL, ..)`).  Returns the token pointer (or NULL), the buffer with the
token terminated in place, and the new saved position. -/
def strtok (buf : List Char) (s : Nat) (delim : List Char) :
    Option Nat × List Char × Nat :=
  let s1 := s + strspn buf s delim
  if byteAt buf s1 = NUL then (none, buf, s1)
  else
    let e := s1 + strcspn buf s1 delim
    if byteAt buf e = NUL then (some s1, buf, e)
    else (some s1, buf.set e NUL, e + 1)

/-! ## The interpreter state and `processing_input` -/

/-- The three arrays of `main` that survive from one iteration to the next. -/
structure ShellState where
  /-- The line buffer, `char command[MAX_LINE]`. -/
  command : List Char
  /-- The pointer array `char *args[MAX_LINE / 2 + 1]`: offsets into `command`. -/
  args : List (Option Nat)
  /-- The history cell, `char history_container[MAX_LINE]`. -/
  history_container : List Char
  deriving DecidableEq

/-- The state after the three `memset` calls of `main`. -/
def ShellState.init : ShellState :=
  { command := List.replicate MAX_LINE NUL
    args := List.replicate ARGS_LEN none
    history_container := List.replicate MAX_LINE NUL }

/-- The loop `while (token != NULL) { args[i] = token; i++; token = strtok(NULL, " "); }`
followed by `args[i] = token;`.  `olds` is the saved position of `strtok`.  A store
outside `args` is undefined; `fuel` bounds the number of iterations. -/
def token_loop : Nat → List Char → List (Option Nat) → Nat → Option Nat → Nat →
    Option (List Char × List (Option Nat))
  | _, command, args, i, none, _ =>
    if i < args.length then some (command, args.set i none) else none
  | 0, _, _, _, some _, _ => none
  | fuel + 1, command, args, i, some p, olds =>
    if i < args.length then
      let r := strtok command olds [' ']
      token_loop fuel r.2.1 (args.set i (some p)) (i + 1) r.1 r.2.2
    else none

/-- The body of `processing_input` after `getline` has returned the line `line`
(with its terminator).  `none` is undefined behaviour (the line overruns `command`). -/
def processing_input (st : ShellState) (line : List Char) : Option ShellState :=
  -- strcpy(command, line);
  match strcpy st.command (cstr line 0) with
  | none => none
  | some c0 =>
    -- command[strcspn(command, "\n")] = '\0';
    let command := c0.set (strcspn c0 0 ['\n']) NUL
    if cstr command 0 = ['!', '!'] then
      if (cstr st.history_container 0).length = 0 then
        -- "No commands in history."
        some { st with command := command }
      else
        -- strcpy(command, history_container);
        match strcpy command (cstr st.history_container 0) with
        | none => none
        | some c1 => some { st with command := c1 }
    else
      -- strcpy(history_container, command);
      match strcpy st.history_container (cstr command 0) with
      | none => none
      | some h =>
        let r := strtok command 0 [' ', '\n']
        match token_loop MAX_LINE r.2.1 st.args 0 r.1 r.2.2 with
        | none => none
        | some (c, a) => some { command := c, args := a, history_container := h }

/-- The argument list a pointer array denotes: the strings of the entries before the
first NULL. -/
def argv_of {α : Type} (str : α → List Char) : List (Option α) → List (List Char)
  | some p :: rest => str p :: argv_of str rest
  | _ => []

/-- The ArgumentList held by the state. -/
def ShellState.argv (st : ShellState) : List (List Char) :=
  argv_of (cstr st.command) st.args

/-- The history line. -/
def ShellState.history (st : ShellState) : List Char :=
  cstr st.history_container 0

/-! ## System calls, traces and the environment -/

/-- The file descriptors the program names. -/
inductive Fd
  | stdin_fileno
  | stdout_fileno
  /-- The read end, `pipeFD[0]`. -/
  | pipe_read
  /-- The write end, `pipeFD[1]`. -/
  | pipe_write
  /-- The descriptor returned by `open`. -/
  | opened
  deriving DecidableEq

/-- The two ways the program calls `open`. -/
inductive OpenHow
  /-- Flags `O_WRONLY | O_CREAT`, mode `S_IRUSR | S_IRGRP | S_IWGRP | S_IWUSR`. -/
  | wronly_creat
  /-- Flag `O_RDONLY`. -/
  | rdonly
  deriving DecidableEq

/-- What a forked child does, in order. -/
inductive ChildCall
  | close (fd : Fd)
  | dup2 (oldfd newfd : Fd)
  | openFile (path : Option (List Char)) (how : OpenHow)
  | execvp (file : Option (List Char)) (argv : List (List Char))
  | perror
  | exit_failure
  /-- An out-of-bounds array read or a NULL string handed to `strcmp`. -/
  | undefined
  deriving DecidableEq

/-- What the interpreter process does, in order.  Children are numbered by the order
of the `fork` calls of one `execution()`: 0 is the first. -/
inductive ParentCall
  | pipe
  | fork (child : List ChildCall)
  | close (fd : Fd)
  /-- A blocking `waitpid(pid, &status, 0)` on the child with that number. -/
  | waitpid (child : Nat)
  /-- A blocking `wait(NULL)`: returns when any child of the interpreter terminates. -/
  | wait_null
  | perror
  | exit_failure
  deriving DecidableEq

/-- The answers of the operating system. -/
structure Env where
  /-- Whether `pipe` succeeds. -/
  pipe_ok : Bool
  /-- Whether the `fork` call with that number succeeds. -/
  fork_ok : Nat → Bool
  /-- Whether `open` succeeds on that path. -/
  open_ok : Option (List Char) → Bool
  /-- Whether `execvp` succeeds on that file. -/
  exec_ok : Option (List Char) → Bool

/-- An environment in which every call succeeds. -/
def Env.allOk : Env :=
  { pipe_ok := true, fork_ok := fun _ => true, open_ok := fun _ => true,
    exec_ok := fun _ => true }

/-- An array read `arr[i]` with a C `int` index: outside the array there is no value. -/
def readAt {β : Type} (arr : List β) (i : Int) : Option β :=
  if i < 0 then none else arr.get? i.toNat

/-- The call `if (execvp(file, argv) < 0) { perror(..); exit(EXIT_FAILURE); }`. -/
def exec_call (env : Env) (file : Option (List Char)) (argv : List (List Char)) :
    List ChildCall :=
  if env.exec_ok file then [ChildCall.execvp file argv]
  else [ChildCall.execvp file argv, ChildCall.perror, ChildCall.exit_failure]

/-! ## `pipe_communication`, `redirection`, `pipe_check`, `execution` -/

/-- The function `pipe_communication(args, pidpipe, ampersand)`.  Both arrays are read
by `execvp` up to their first NULL.  Returns the calls of the interpreter and
whether it is still running afterwards. -/
def pipe_communication {α : Type} (str : α → List Char) (env : Env)
    (args : List (Option α)) (pidpipe : List (Option (List Char))) (ampersand : Bool) :
    List ParentCall × Bool :=
  if !env.pipe_ok then ([ParentCall.perror, ParentCall.exit_failure], false)
  else if !env.fork_ok 0 then
    ([ParentCall.pipe, ParentCall.perror, ParentCall.exit_failure], false)
  else
    let first : List ChildCall :=
      [ChildCall.close Fd.pipe_read, ChildCall.dup2 Fd.pipe_write Fd.stdout_fileno,
        ChildCall.close Fd.pipe_write] ++
        exec_call env ((args.head?.join).map str) (argv_of str args)
    if !env.fork_ok 1 then
      ([ParentCall.pipe, ParentCall.fork first, ParentCall.perror,
        ParentCall.exit_failure], false)
    else
      let second : List ChildCall :=
        [ChildCall.close Fd.pipe_write, ChildCall.dup2 Fd.pipe_read Fd.stdin_fileno,
          ChildCall.close Fd.pipe_read] ++
          exec_call env (pidpipe.head?.join) (argv_of id pidpipe)
      ([ParentCall.pipe, ParentCall.fork first, ParentCall.fork second,
        ParentCall.close Fd.pipe_read, ParentCall.close Fd.pipe_write] ++
        (if !ampersand then [ParentCall.waitpid 1] else []), true)

/-- The function `redirection(args, argc)`: is one of `args[0..argc)` the string `<` or `>`.
`strcmp` on a NULL entry, or a read past the array, is undefined. -/
def redirection {α : Type} (str : α → List Char) : List (Option α) → Nat → Option Bool
  | _, 0 => some false
  | [], _ + 1 => none
  | none :: _, _ + 1 => none
  | some p :: rest, n + 1 =>
    if str p = ['<'] ∨ str p = ['>'] then some true else redirection str rest n

/-- The loop of `pipe_check` from index `i` on, `n` entries left to look at. -/
def pipe_check_from {α : Type} (str : α → List Char) :
    List (Option α) → Nat → Nat → Option Int
  | _, 0, _ => some (-1)
  | [], _ + 1, _ => none
  | a :: rest, n + 1, i =>
    if a.map str = some ['|'] then some (i : Int) else pipe_check_from str rest n (i + 1)

/-- The function `pipe_check(args, argc)`: the index of the first `|`, or -1. -/
def pipe_check {α : Type} (str : α → List Char) (args : List (Option α)) (argc : Nat) :
    Option Int :=
  if argc = 0 then some (-1) else pipe_check_from str args argc 0

/-- The loop `second_child[counter] = strdup(args[pipe_char + counter + 1])`, run `n`
times on the entries after the separator. -/
def strdup_loop {α : Type} (str : α → List Char) :
    List (Option α) → Nat → Option (List (List Char))
  | _, 0 => some []
  | some p :: rest, n + 1 => (strdup_loop str rest n).map (fun l => str p :: l)
  | _, _ + 1 => none

/-- The pipeline branch of `execution` up to the call of `pipe_communication`: the
array `args` as it is handed over, the copied `second_child` (its entries before the
NULL) and the flag `ampersand`. -/
def pipeline_split {α : Type} (str : α → List Char) (args : List (Option α)) (argc : Nat)
    (pipe_char : Nat) : Option (List (Option α) × List (List Char) × Bool) :=
  match strdup_loop str (args.drop (pipe_char + 1)) (argc - pipe_char - 1) with
  | none => none
  | some second_child =>
    let counter : Nat := argc - pipe_char - 1
    -- strcmp(second_child[counter - 1], "&") == 0
    match readAt second_child ((counter : Int) - 1) with
    | none => none
    | some last =>
      if last = ['&'] then
        -- args[counter - 1] = NULL; args[pipe_char] = NULL;
        some (((args.set (counter - 1) none).set pipe_char none), second_child, true)
      else
        some (args.set pipe_char none, second_child, false)

/-- The child of the single-command branch of `execution`. -/
def single_child {α : Type} (str : α → List Char) (env : Env) (args : List (Option α))
    (argc : Nat) : List ChildCall :=
  match redirection str args argc with
  | none => [ChildCall.undefined]
  | some false => exec_call env ((args.head?.join).map str) (argv_of str args)
  | some true =>
    -- strcmp(args[argc - 2], ..)
    match readAt args ((argc : Int) - 2) with
    | none => [ChildCall.undefined]
    | some none => [ChildCall.undefined]
    | some (some op) =>
      let path := ((args.get? (argc - 1)).join).map str
      let args1 := args.set (argc - 2) none
      if str op = ['>'] then
        if env.open_ok path then
          [ChildCall.openFile path OpenHow.wronly_creat,
            ChildCall.dup2 Fd.opened Fd.stdout_fileno, ChildCall.close Fd.opened] ++
            exec_call env ((args1.head?.join).map str) (argv_of str args1)
        else
          [ChildCall.openFile path OpenHow.wronly_creat, ChildCall.perror,
            ChildCall.exit_failure]
      else if str op = ['<'] then
        if env.open_ok path then
          [ChildCall.openFile path OpenHow.rdonly,
            ChildCall.dup2 Fd.opened Fd.stdin_fileno, ChildCall.close Fd.opened] ++
            exec_call env ((args1.head?.join).map str) (argv_of str args1)
        else
          [ChildCall.openFile path OpenHow.rdonly, ChildCall.perror,
            ChildCall.exit_failure]
      else exec_call env ((args.head?.join).map str) (argv_of str args)

/-- What `execution` leaves behind in the interpreter. -/
structure ExecResult (α : Type) where
  /-- The calls of the interpreter process. -/
  trace : List ParentCall
  /-- The array `args` of the interpreter afterwards. -/
  args : List (Option α)
  /-- The local flag `ampersand`. -/
  ampersand : Bool
  /-- Whether the interpreter is still running. -/
  running : Bool

/-- The function `execution(args, argc)`.  `none` is undefined behaviour in the
interpreter process itself. -/
def execution {α : Type} (str : α → List Char) (env : Env) (args : List (Option α))
    (argc : Nat) : Option (ExecResult α) :=
  match args with
  | [] => none
  | none :: _ => some { trace := [], args := args, ampersand := false, running := true }
  | some _ :: _ =>
    match pipe_check str args argc with
    | none => none
    | some pipe_char =>
      if pipe_char ≠ -1 then
        match pipeline_split str args argc pipe_char.toNat with
        | none => none
        | some (args1, second_child, ampersand) =>
          let r := pipe_communication str env args1
            (second_child.map some ++ [none]) ampersand
          some { trace := r.1, args := args1, ampersand := ampersand, running := r.2 }
      else
        -- strcmp(args[argc - 1], "&") == 0
        match readAt args ((argc : Int) - 1) with
        | none => none
        | some none => none
        | some (some last) =>
          let ampersand : Bool := decide (str last = ['&'])
          let args1 := if ampersand then args.set (argc - 1) none else args
          let argc1 := if ampersand then argc - 1 else argc
          if !env.fork_ok 0 then
            some { trace := [ParentCall.perror, ParentCall.exit_failure], args := args1,
                   ampersand := ampersand, running := false }
          else
            some { trace := [ParentCall.fork (single_child str env args1 argc1)] ++
                     (if ampersand then [ParentCall.wait_null] else []),
                   args := args1, ampersand := ampersand, running := true }

/-! ## One iteration of the loop of `main` -/

/-- The loop `while (args[argc] != NULL) argc++;`. -/
def count_args {α : Type} : List (Option α) → Nat
  | some _ :: rest => count_args rest + 1
  | _ => 0

/-- The outcome of one iteration of the loop of `main`. -/
structure Iteration where
  /-- The arrays afterwards. -/
  state : ShellState
  /-- The calls of the interpreter between reading the line and the next prompt. -/
  trace : List ParentCall
  /-- The variable `should_run` (false also when the interpreter has exited). -/
  should_run : Bool

/-- The part of the loop body of `main` after `processing_input`, from
`if (args[0] != NULL)` on. -/
def main_dispatch (env : Env) (st1 : ShellState) : Option Iteration :=
  match st1.args with
  | [] => none
  | none :: _ => some { state := st1, trace := [], should_run := true }
  | some p :: _ =>
    let argc := count_args st1.args
    if cstr st1.command p = ['e', 'x', 'i', 't'] then
      some { state := st1, trace := [], should_run := false }
    else
      match execution (cstr st1.command) env st1.args argc with
      | none => none
      | some r =>
        if r.running then
          -- ampersand = false; if (!ampersand) wait(NULL);
          some { state := { st1 with args := r.args },
                 trace := r.trace ++ [ParentCall.wait_null], should_run := true }
        else
          some { state := { st1 with args := r.args }, trace := r.trace,
                 should_run := false }

/-- One iteration of `while (should_run)` in `main`, on the line `getline` returned. -/
def main_iteration (env : Env) (st : ShellState) (line : List Char) : Option Iteration :=
  match processing_input st line with
  | none => none
  | some st1 => main_dispatch env st1

/-- Run the loop on a list of lines, collecting the trace of each iteration. -/
def run_lines (env : Env) : ShellState → List (List Char) →
    Option (ShellState × List (List ParentCall))
  | st, [] => some (st, [])
  | st, line :: rest =>
    match main_iteration env st line with
    | none => none
    | some it =>
      if it.should_run then
        (run_lines env it.state rest).map (fun r => (r.1, it.trace :: r.2))
      else some (it.state, [it.trace])

/-! ## Vocabulary of the specification -/

/-- The tokens `|`, `<` and `>`. -/
def is_operator (t : List Char) : Bool :=
  t == ['|'] || t == ['<'] || t == ['>']

/-- A token list without its trailing `&`, when it has one. -/
def strip_ampersand (t : List (List Char)) : List (List Char) :=
  if t.getLast? = some ['&'] then t.dropLast else t

/-- The argument lists handed to `execvp` by a child. -/
def child_argvs : List ChildCall → List (List (List Char))
  | ChildCall.execvp _ argv :: rest => argv :: child_argvs rest
  | _ :: rest => child_argvs rest
  | [] => []

/-- The argument lists handed to `execvp` by the children of a trace. -/
def exec_argvs : List ParentCall → List (List (List Char))
  | ParentCall.fork child :: rest => child_argvs child ++ exec_argvs rest
  | _ :: rest => exec_argvs rest
  | [] => []

/-- The children created in a trace. -/
def forks : List ParentCall → List (List ChildCall)
  | ParentCall.fork child :: rest => child :: forks rest
  | _ :: rest => forks rest
  | [] => []

/-- The placements of `|`, `<` and `>` the program is written for: no such token at
all; or one `|` that is not the last token and no other such token; or one `<` or `>`
as the token before the last one, once a trailing `&` is stripped, and no other
such token. -/
def directive_placed (t : List (List Char)) : Prop :=
  (∀ x ∈ t, is_operator x = false) ∨
  (∃ l r, t = l ++ ['|'] :: r ∧ r ≠ [] ∧ (∀ x ∈ l, is_operator x = false) ∧
    (∀ x ∈ r, is_operator x = false)) ∨
  (∃ cmd op file, strip_ampersand t = cmd ++ [op, file] ∧ (op = ['<'] ∨ op = ['>']) ∧
    (∀ x ∈ cmd, is_operator x = false) ∧ is_operator file = false)

/-- No token of any argument list handed to `execvp` in the trace is `|`, `<` or `>`. -/
def no_operator_reaches_exec (tr : List ParentCall) : Prop :=
  ∀ argv ∈ exec_argvs tr, ∀ x ∈ argv, is_operator x = false

/-- The array `args` that holds the pointers `ps` followed by the NULL sentinel. -/
def args_of {α : Type} (ps : List α) (rest : List (Option α)) : List (Option α) :=
  ps.map some ++ none :: rest

/-! ## Lemmas on C strings -/

theorem set_append_cons {β : Type} (pre b : List β) (x y : β) :
    (pre ++ x :: b).set pre.length y = pre ++ y :: b := by
  induction pre with
  | nil => rfl
  | cons z zs ih => simp [ih]

theorem takeWhile_all {β : Type} (q : β → Bool) (a b : List β) (ha : ∀ c ∈ a, q c = true) :
    (a ++ b).takeWhile q = a ++ b.takeWhile q := by
  induction a with
  | nil => rfl
  | cons y ys ih =>
    have hy : q y = true := ha y (List.mem_cons_self _ _)
    simp [List.takeWhile_cons, hy, ih (fun c hc => ha c (List.mem_cons_of_mem _ hc))]

theorem argv_of_args_of {α : Type} (str : α → List Char) (ps : List α)
    (rest : List (Option α)) : argv_of str (args_of ps rest) = ps.map str := by
  induction ps with
  | nil => rfl
  | cons p ps ih =>
    show str p :: argv_of str (args_of ps rest) = _
    rw [ih]; rfl

theorem args_of_cons {α : Type} (p : α) (ps : List α) (rest : List (Option α)) :
    args_of (p :: ps) rest = some p :: args_of ps rest := rfl

theorem args_of_append {α : Type} (l r : List α) (rest : List (Option α)) :
    args_of (l ++ r) rest = l.map some ++ args_of r rest := by
  simp [args_of]

theorem pipe_check_from_no_pipe {α : Type} (str : α → List Char) (ps : List α)
    (rest : List (Option α)) (k : Nat) (h : ∀ p ∈ ps, str p ≠ ['|']) :
    pipe_check_from str (args_of ps rest) ps.length k = some (-1) := by
  induction ps generalizing k with
  | nil => cases rest <;> rfl
  | cons p ps ih =>
    have hp : str p ≠ ['|'] := h p (List.mem_cons_self _ _)
    rw [args_of_cons, List.length_cons]
    simp only [pipe_check_from, Option.map_some', Option.some.injEq, if_neg hp]
    exact ih (k + 1) (fun q hq => h q (List.mem_cons_of_mem _ hq))

theorem pipe_check_from_first_pipe {α : Type} (str : α → List Char) (l : List α) (q : α)
    (r : List α) (rest : List (Option α)) (k : Nat) (hl : ∀ p ∈ l, str p ≠ ['|'])
    (hq : str q = ['|']) :
    pipe_check_from str (args_of (l ++ q :: r) rest) (l ++ q :: r).length k
      = some ((k + l.length : Nat) : Int) := by
  induction l generalizing k with
  | nil =>
    rw [List.nil_append, args_of_cons, List.length_cons]
    simp [pipe_check_from, hq]
  | cons p ps ih =>
    have hp : str p ≠ ['|'] := hl p (List.mem_cons_self _ _)
    rw [List.cons_append, args_of_cons, List.length_cons]
    simp only [pipe_check_from, Option.map_some', Option.some.injEq, if_neg hp]
    rw [ih (k + 1) (fun q hq => hl q (List.mem_cons_of_mem _ hq))]
    simp only [List.length_cons]
    congr 2
    omega

theorem readAt_nat {β : Type} (arr : List β) (k : Nat) : readAt arr (k : Int) = arr.get? k := by
  unfold readAt
  rw [if_neg (by omega)]
  rfl

theorem get?_args_of_last {α : Type} (init : List α) (last : α) (rest : List (Option α)) :
    (args_of (init ++ [last]) rest).get? init.length = some (some last) := by
  rw [args_of_append]
  have : init.length = (init.map some).length := by simp
  rw [this, List.get?_eq_getElem?, List.getElem?_append_right (le_refl _)]
  simp [args_of]

theorem set_last_args_of {α : Type} (init : List α) (x : α) (rest : List (Option α)) :
    (args_of (init ++ [x]) rest).set init.length none = args_of init (none :: rest) := by
  rw [args_of_append]
  have : init.length = (init.map some).length := by simp
  rw [this]
  exact set_append_cons _ _ _ _

theorem redirection_args_of {α : Type} (str : α → List Char) (ps : List α)
    (rest : List (Option α)) :
    redirection str (args_of ps rest) ps.length
      = some (ps.any (fun p => decide (str p = ['<'] ∨ str p = ['>']))) := by
  induction ps with
  | nil => cases rest <;> rfl
  | cons p ps ih =>
    rw [args_of_cons, List.length_cons]
    by_cases hp : str p = ['<'] ∨ str p = ['>']
    · simp [redirection, hp]
    · simp only [redirection, if_neg hp, ih, List.any_cons, decide_eq_false hp,
        Bool.false_or]

theorem head_args_of {α : Type} (str : α → List Char) (ps : List α) (rest : List (Option α)) :
    ((args_of ps rest).head?.join).map str = ps.head?.map str := by
  cases ps <;> rfl

/-- The child of the single-command branch when no entry is `<` or `>`. -/
theorem single_child_plain {α : Type} (str : α → List Char) (env : Env) (ps : List α)
    (rest : List (Option α)) (h : ∀ p ∈ ps, str p ≠ ['<'] ∧ str p ≠ ['>']) :
    single_child str env (args_of ps rest) ps.length
      = exec_call env (ps.head?.map str) (ps.map str) := by
  have hany : ps.any (fun p => decide (str p = ['<'] ∨ str p = ['>'])) = false := by
    rw [List.any_eq_false]
    intro p hp
    have := h p hp
    simp [this.1, this.2]
  unfold single_child
  rw [redirection_args_of, hany]
  simp only []
  rw [head_args_of, argv_of_args_of]

theorem args_of_ne_nil {α : Type} (ps : List α) (rest : List (Option α)) (h : ps ≠ []) :
    ∃ p tl, args_of ps rest = some p :: tl := by
  cases ps with
  | nil => exact absurd rfl h
  | cons p ps => exact ⟨p, args_of ps rest, rfl⟩

theorem readAt_pred_last {α : Type} (init : List α) (last : α) (rest : List (Option α)) :
    readAt (args_of (init ++ [last]) rest) (((init ++ [last]).length : Nat) - 1 : Int)
      = some (some last) := by
  have : (((init ++ [last]).length : Nat) - 1 : Int) = ((init.length : Nat) : Int) := by
    simp
  rw [this, readAt_nat, get?_args_of_last]

/-- The child of the single-command branch when the entry before the last one is `>`
or `<`. -/
theorem single_child_redirect {α : Type} (str : α → List Char) (env : Env) (cmd : List α)
    (op file : α) (rest : List (Option α)) (hop : str op = ['>'] ∨ str op = ['<']) :
    single_child str env (args_of (cmd ++ [op, file]) rest) (cmd ++ [op, file]).length
      = if env.open_ok (some (str file)) then
          [ChildCall.openFile (some (str file))
              (if str op = ['>'] then OpenHow.wronly_creat else OpenHow.rdonly),
            ChildCall.dup2 Fd.opened
              (if str op = ['>'] then Fd.stdout_fileno else Fd.stdin_fileno),
            ChildCall.close Fd.opened] ++ exec_call env (cmd.head?.map str) (cmd.map str)
        else
          [ChildCall.openFile (some (str file))
              (if str op = ['>'] then OpenHow.wronly_creat else OpenHow.rdonly),
            ChildCall.perror, ChildCall.exit_failure] := by
  have hany : (cmd ++ [op, file]).any (fun p => decide (str p = ['<'] ∨ str p = ['>']))
      = true := by
    rw [List.any_eq_true]
    exact ⟨op, by simp, by simpa using hop.symm⟩
  have hlen : (cmd ++ [op, file]).length = cmd.length + 2 := by simp
  have hidx : (((cmd ++ [op, file]).length : Nat) : Int) - 2 = ((cmd.length : Nat) : Int) := by
    rw [hlen]; push_cast; ring
  have hsplit : cmd ++ [op, file] = (cmd ++ [op]) ++ [file] := by simp
  have hread : readAt (args_of (cmd ++ [op, file]) rest) ((cmd.length : Nat) : Int)
      = some (some op) := by
    rw [readAt_nat, args_of_append]
    have : cmd.length = (cmd.map some).length := by simp
    rw [this, List.get?_eq_getElem?, List.getElem?_append_right (le_refl _)]
    simp [args_of]
  have hpath : (args_of (cmd ++ [op, file]) rest).get? ((cmd ++ [op, file]).length - 1)
      = some (some file) := by
    have : (cmd ++ [op, file]).length - 1 = (cmd ++ [op]).length := by simp
    rw [this, hsplit]
    exact get?_args_of_last _ _ _
  have hset : (args_of (cmd ++ [op, file]) rest).set ((cmd ++ [op, file]).length - 2) none
      = args_of cmd (some file :: none :: rest) := by
    have : (cmd ++ [op, file]).length - 2 = (cmd.map some).length := by simp
    rw [this, args_of_append]
    exact set_append_cons _ _ _ _
  unfold single_child
  rw [redirection_args_of, hany]
  simp only []
  rw [hidx, hread]
  have hjoin : (some (some file) : Option (Option α)).join = some file := rfl
  simp only [hpath, hset, hjoin, Option.map_some', head_args_of, argv_of_args_of]
  rcases hop with h | h
  · simp only [h, if_true]
  · have hne : (['<'] : List Char) ≠ ['>'] := by decide
    simp only [h, if_neg hne, if_true]

/-- The single-command branch of `execution` on an array holding `init ++ [last]`. -/
theorem execution_single {α : Type} (str : α → List Char) (env : Env) (init : List α)
    (last : α) (rest : List (Option α)) (hpipe : ∀ p ∈ init ++ [last], str p ≠ ['|'])
    (hfork : env.fork_ok 0 = true) :
    ∃ r, execution str env (args_of (init ++ [last]) rest) (init ++ [last]).length = some r ∧
      r.running = true ∧ r.ampersand = decide (str last = ['&']) ∧
      (str last = ['&'] →
        r.trace = [ParentCall.fork (single_child str env (args_of init (none :: rest))
          init.length), ParentCall.wait_null] ∧ r.args = args_of init (none :: rest)) ∧
      (str last ≠ ['&'] →
        r.trace = [ParentCall.fork (single_child str env (args_of (init ++ [last]) rest)
          (init ++ [last]).length)] ∧ r.args = args_of (init ++ [last]) rest) := by
  obtain ⟨p, tl, hshape⟩ := args_of_ne_nil (init ++ [last]) rest (by simp)
  have hpc : pipe_check str (args_of (init ++ [last]) rest) (init ++ [last]).length
      = some (-1) := by
    unfold pipe_check
    rw [if_neg (by simp)]
    exact pipe_check_from_no_pipe str _ rest 0 hpipe
  have hread := readAt_pred_last init last rest
  have hexec : execution str env (args_of (init ++ [last]) rest) (init ++ [last]).length
      = some
        { trace := [ParentCall.fork (single_child str env
              (if decide (str last = ['&']) = true
                then (args_of (init ++ [last]) rest).set ((init ++ [last]).length - 1) none
                else args_of (init ++ [last]) rest)
              (if decide (str last = ['&']) = true then (init ++ [last]).length - 1
                else (init ++ [last]).length))] ++
              (if decide (str last = ['&']) = true then [ParentCall.wait_null] else []),
          args := if decide (str last = ['&']) = true
                then (args_of (init ++ [last]) rest).set ((init ++ [last]).length - 1) none
                else args_of (init ++ [last]) rest,
          ampersand := decide (str last = ['&']), running := true } := by
    unfold execution
    rw [hshape] at hpc hread ⊢
    simp only [hpc, hread, hfork]
    simp
  refine ⟨_, hexec, rfl, rfl, ?_, ?_⟩
  · intro h
    have hl : (init ++ [last]).length - 1 = init.length := by simp
    simp only [h, decide_True, if_true, hl, set_last_args_of]
    exact ⟨rfl, trivial⟩
  · intro h
    simp only [h, decide_False, Bool.false_eq_true, if_false, List.append_nil]
    exact ⟨trivial, trivial⟩

/-! ## Lemmas on `execution`, pipeline branch -/

theorem drop_args_of {α : Type} (l : List α) (q : α) (r : List α) (rest : List (Option α)) :
    (args_of (l ++ q :: r) rest).drop (l.length + 1) = args_of r rest := by
  have h : l ++ q :: r = (l ++ [q]) ++ r := by simp
  rw [h, args_of_append]
  have : l.length + 1 = ((l ++ [q]).map some).length := by simp
  rw [this, List.drop_left]

theorem strdup_loop_args_of {α : Type} (str : α → List Char) (r : List α)
    (rest : List (Option α)) : strdup_loop str (args_of r rest) r.length = some (r.map str) := by
  induction r with
  | nil => cases rest <;> rfl
  | cons p ps ih =>
    rw [args_of_cons, List.length_cons]
    simp only [strdup_loop, ih, Option.map_some', List.map_cons]

theorem argv_of_set_none {α : Type} (str : α → List Char) (arr : List (Option α)) (k : Nat) :
    argv_of str (arr.set k none) = (argv_of str arr).take k := by
  induction arr generalizing k with
  | nil => simp [argv_of]
  | cons a as ih =>
    cases k with
    | zero => simp [argv_of]
    | succ j =>
      cases a with
      | none => simp [argv_of]
      | some p => simp [argv_of, ih j]

theorem argv_of_some_none (second : List (List Char)) :
    argv_of id (second.map some ++ [none]) = second := by
  have := argv_of_args_of id second []
  simpa [args_of] using this

/-- The pipeline branch of `execution` up to the call of `pipe_communication`, on an
array holding `l ++ q :: (rinit ++ [rlast])` whose separator is `q`. -/
theorem pipeline_split_args_of {α : Type} (str : α → List Char) (l : List α) (q : α)
    (rinit : List α) (rlast : α) (rest : List (Option α)) :
    pipeline_split str (args_of (l ++ q :: (rinit ++ [rlast])) rest)
        (l ++ q :: (rinit ++ [rlast])).length l.length
      = if str rlast = ['&'] then
          some (((args_of (l ++ q :: (rinit ++ [rlast])) rest).set rinit.length none).set
            l.length none, (rinit ++ [rlast]).map str, true)
        else
          some ((args_of (l ++ q :: (rinit ++ [rlast])) rest).set l.length none,
            (rinit ++ [rlast]).map str, false) := by
  have hcount : (l ++ q :: (rinit ++ [rlast])).length - l.length - 1
      = (rinit ++ [rlast]).length := by
    simp only [List.length_append, List.length_cons, List.length_nil]
    omega
  have hidx : (((rinit ++ [rlast]).length : Nat) : Int) - 1 = ((rinit.length : Nat) : Int) := by
    simp
  have hread : readAt ((rinit ++ [rlast]).map str) ((rinit.length : Nat) : Int)
      = some (str rlast) := by
    rw [readAt_nat, List.map_append]
    have : rinit.length = (rinit.map str).length := by simp
    rw [this, List.get?_eq_getElem?, List.getElem?_append_right (le_refl _)]
    simp
  have hpred : (rinit ++ [rlast]).length - 1 = rinit.length := by simp
  unfold pipeline_split
  rw [drop_args_of, hcount, strdup_loop_args_of]
  simp only [hidx, hread, hpred]

/-- The pipeline branch of `execution`: the array holds `l ++ q :: (rinit ++ [rlast])`,
`q` is the first `|`. -/
theorem execution_pipeline {α : Type} (str : α → List Char) (env : Env) (l : List α) (q : α)
    (rinit : List α) (rlast : α) (rest : List (Option α))
    (hl : ∀ p ∈ l, str p ≠ ['|']) (hq : str q = ['|']) :
    ∃ r args1, execution str env (args_of (l ++ q :: (rinit ++ [rlast])) rest)
          (l ++ q :: (rinit ++ [rlast])).length = some r ∧
      r.ampersand = decide (str rlast = ['&']) ∧ r.args = args1 ∧
      argv_of str args1 = (if str rlast = ['&'] then (l.map str).take rinit.length
        else l.map str) ∧
      r.trace = (pipe_communication str env args1
        (((rinit ++ [rlast]).map str).map some ++ [none]) r.ampersand).1 ∧
      r.running = (pipe_communication str env args1
        (((rinit ++ [rlast]).map str).map some ++ [none]) r.ampersand).2 := by
  obtain ⟨p, tl, hshape⟩ := args_of_ne_nil (l ++ q :: (rinit ++ [rlast])) rest (by simp)
  have hpc : pipe_check str (args_of (l ++ q :: (rinit ++ [rlast])) rest)
      (l ++ q :: (rinit ++ [rlast])).length = some ((l.length : Nat) : Int) := by
    unfold pipe_check
    rw [if_neg (by simp), pipe_check_from_first_pipe str l q _ rest 0 hl hq]
    simp
  have hsplit := pipeline_split_args_of str l q rinit rlast rest
  have hargv : argv_of str ((args_of (l ++ q :: (rinit ++ [rlast])) rest).set l.length none)
      = l.map str := by
    have h1 : (args_of (l ++ q :: (rinit ++ [rlast])) rest).set l.length none
        = args_of l (args_of (rinit ++ [rlast]) rest) := by
      rw [args_of_append, args_of_cons]
      have : l.length = (l.map some).length := by simp
      rw [this]
      exact set_append_cons _ _ _ _
    rw [h1, argv_of_args_of]
  by_cases hamp : str rlast = ['&']
  · rw [if_pos hamp] at hsplit
    have hexec : execution str env (args_of (l ++ q :: (rinit ++ [rlast])) rest)
        (l ++ q :: (rinit ++ [rlast])).length
        = some
          { trace := (pipe_communication str env
              (((args_of (l ++ q :: (rinit ++ [rlast])) rest).set rinit.length none).set
                l.length none)
              (((rinit ++ [rlast]).map str).map some ++ [none]) true).1,
            args := ((args_of (l ++ q :: (rinit ++ [rlast])) rest).set rinit.length none).set
                l.length none,
            ampersand := true,
            running := (pipe_communication str env
              (((args_of (l ++ q :: (rinit ++ [rlast])) rest).set rinit.length none).set
                l.length none)
              (((rinit ++ [rlast]).map str).map some ++ [none]) true).2 } := by
      unfold execution
      rw [hshape] at hpc hsplit ⊢
      simp only [hpc]
      rw [if_pos (by omega)]
      simp only [Int.toNat_ofNat, hsplit]
    refine ⟨_, _, hexec, ?_, rfl, ?_, rfl, rfl⟩
    · simp [hamp]
    · rw [if_pos hamp]
      have hcomm : ((args_of (l ++ q :: (rinit ++ [rlast])) rest).set rinit.length none).set
          l.length none
          = ((args_of (l ++ q :: (rinit ++ [rlast])) rest).set l.length none).set
            rinit.length none := by
        by_cases h : rinit.length = l.length
        · rw [h]
        · exact List.set_comm _ _ _ h
      rw [hcomm, argv_of_set_none, hargv]
  · rw [if_neg hamp] at hsplit
    have hexec : execution str env (args_of (l ++ q :: (rinit ++ [rlast])) rest)
        (l ++ q :: (rinit ++ [rlast])).length
        = some
          { trace := (pipe_communication str env
              ((args_of (l ++ q :: (rinit ++ [rlast])) rest).set l.length none)
              (((rinit ++ [rlast]).map str).map some ++ [none]) false).1,
            args := (args_of (l ++ q :: (rinit ++ [rlast])) rest).set l.length none,
            ampersand := false,
            running := (pipe_communication str env
              ((args_of (l ++ q :: (rinit ++ [rlast])) rest).set l.length none)
              (((rinit ++ [rlast]).map str).map some ++ [none]) false).2 } := by
      unfold execution
      rw [hshape] at hpc hsplit ⊢
      simp only [hpc]
      rw [if_pos (by omega)]
      simp only [Int.toNat_ofNat, hsplit]
    refine ⟨_, _, hexec, ?_, rfl, ?_, rfl, rfl⟩
    · simp [hamp]
    · rw [if_neg hamp, hargv]

/-! ## Lemmas on the loop of `main` -/

theorem exec_call_eq (env : Env) (file : Option (List Char)) (argv : List (List Char)) :
    exec_call env file argv
      = ChildCall.execvp file argv ::
          (if env.exec_ok file = true then [] else [ChildCall.perror, ChildCall.exit_failure]) := by
  unfold exec_call
  split <;> rfl

/-- C1: the code at `sleep 5 &`.  The `&` is removed from the argument list of `execvp`
and the flag is set, but the interpreter blocks twice before the next prompt:
on the `wait(NULL)` inside `execution` and on the one in the loop of `main`. -/
theorem background_command_is_waited_for :
    (main_iteration Env.allOk ShellState.init
        ['s', 'l', 'e', 'e', 'p', ' ', '5', ' ', '&', '\n']).map (fun it => it.trace)
      = some [ParentCall.fork [ChildCall.execvp (some ['s', 'l', 'e', 'e', 'p'])
            [['s', 'l', 'e', 'e', 'p'], ['5']]],
          ParentCall.wait_null, ParentCall.wait_null] := by
  decide

/-- C2: the code at `echo hi` followed by `!!`.  The recall copies the history line back
into `command` but does not tokenize it again: `args` keeps the pointers of the
previous line, which now read `echo hi` and `hi`.  The history cell still holds
`echo hi`. -/
theorem recall_is_not_retokenized :
    ((processing_input ShellState.init ['e', 'c', 'h', 'o', ' ', 'h', 'i', '\n']).map
        (fun st => st.argv) = some [['e', 'c', 'h', 'o'], ['h', 'i']]) ∧
    ((run_lines Env.allOk ShellState.init
        [['e', 'c', 'h', 'o', ' ', 'h', 'i', '\n'], ['!', '!', '\n']]).map
        (fun r => (r.1.argv, r.1.history, r.2.map exec_argvs))
      = some ([['e', 'c', 'h', 'o', ' ', 'h', 'i'], ['h', 'i']],
          ['e', 'c', 'h', 'o', ' ', 'h', 'i'],
          [[[['e', 'c', 'h', 'o'], ['h', 'i']]],
           [[['e', 'c', 'h', 'o', ' ', 'h', 'i'], ['h', 'i']]]])) := by
  decide

/-- C3: the code at `ls -l | wc &`.  The flag is true, but the `&` stays in the right
command and the NULL meant to remove it is stored at `args[counter - 1]`, which cuts
the left command short. -/
theorem pipeline_ampersand_split :
    (pipeline_split id (args_of [['l', 's'], ['-', 'l'], ['|'], ['w', 'c'], ['&']] []) 5 2).map
        (fun r => (argv_of id r.1, r.2.1, r.2.2))
      = some ([['l', 's']], [['w', 'c'], ['&']], true) := by
  decide

/-- C10: the code at `ls |`, at `>` alone and at `&` alone.  With `|` as last token
`counter` is 0, no token is copied, and the interpreter reads `second_child[-1]`; with
`>` alone `redirection` returns true and the child reads `args[-1]`; `&` alone is
read at `args[0]`, inside the array. -/
theorem execution_reads_before_the_array :
    (pipe_check id (args_of [['l', 's'], ['|']] []) 2 = some 1 ∧
      strdup_loop id ((args_of [['l', 's'], ['|']] []).drop (1 + 1)) (2 - 1 - 1) = some [] ∧
      readAt ([] : List (List Char)) (((2 - 1 - 1 : Nat) : Int) - 1) = none ∧
      (execution id Env.allOk (args_of [['l', 's'], ['|']] []) 2).isNone = true) ∧
    (redirection id (args_of [['>']] []) 1 = some true ∧
      readAt (args_of [['>']] []) (((1 : Nat) : Int) - 2) = none ∧
      (execution id Env.allOk (args_of [['>']] []) 1).map (fun r => r.trace)
        = some [ParentCall.fork [ChildCall.undefined]]) ∧
    (readAt (args_of [['&']] []) (((1 : Nat) : Int) - 1) = some (some ['&']) ∧
      (execution id Env.allOk (args_of [['&']] []) 1).map (fun r => r.trace)
        = some [ParentCall.fork [ChildCall.execvp none []], ParentCall.wait_null]) := by
  decide

/-! ## The claim about the Redirection Applier -/

theorem strip_ampersand_cases {α : Type} (str : α → List Char) (ps : List α) :
    (∃ init last, ps = init ++ [last] ∧ str last = ['&'] ∧
      strip_ampersand (ps.map str) = init.map str) ∨
    (strip_ampersand (ps.map str) = ps.map str ∧
      ∀ init last, ps = init ++ [last] → str last ≠ ['&']) := by
  rcases List.eq_nil_or_concat ps with rfl | ⟨init, last, hps⟩
  swap
  · rw [List.concat_eq_append] at hps
    subst hps
    by_cases h : str last = ['&']
    · left
      refine ⟨init, last, rfl, h, ?_⟩
      unfold strip_ampersand
      simp [h]
    · right
      refine ⟨?_, ?_⟩
      · unfold strip_ampersand
        simp [h]
      · intro init1 last1 heq
        have := List.append_inj' heq rfl
        have hl : last = last1 := by simpa using this.2
        rw [← hl]; exact h
  · right
    refine ⟨rfl, ?_⟩
    intro init last h
    simp at h

theorem two_last {β : Type} (xs : List β) (h : 2 ≤ xs.length) :
    ∃ cmd a b, xs = cmd ++ [a, b] := by
  rcases List.eq_nil_or_concat xs with rfl | ⟨ys, b, rfl⟩
  · simp at h
  · rcases List.eq_nil_or_concat ys with rfl | ⟨zs, a, rfl⟩
    · simp at h
    · exact ⟨zs, a, b, by simp [List.concat_eq_append]⟩

theorem redirect_shape {α : Type} (str : α → List Char) (cmd : List α) (op file : α) :
    ((cmd ++ [op, file]).map str).get? (((cmd ++ [op, file]).map str).length - 2)
        = some (str op) ∧
    ((cmd ++ [op, file]).map str).get? (((cmd ++ [op, file]).map str).length - 1)
        = some (str file) ∧
    ((cmd ++ [op, file]).map str).take (((cmd ++ [op, file]).map str).length - 2)
        = cmd.map str ∧
    (cmd ≠ [] → ((cmd ++ [op, file]).map str).head? = cmd.head?.map str) := by
  have h2 : ((cmd ++ [op, file]).map str).length - 2 = (cmd.map str).length := by simp
  have h1 : ((cmd ++ [op, file]).map str).length - 1 = (cmd.map str).length + 1 := by simp
  have hm : (cmd ++ [op, file]).map str = cmd.map str ++ [str op, str file] := by simp
  refine ⟨?_, ?_, ?_, ?_⟩
  · rw [h2, hm, List.get?_eq_getElem?, List.getElem?_append_right (le_refl _)]
    simp
  · rw [h1, hm, List.get?_eq_getElem?, List.getElem?_append_right (Nat.le_succ _)]
    simp
  · rw [h2, hm, List.take_left]
  · intro hne
    cases cmd with
    | nil => exact absurd rfl hne
    | cons c cs => rfl

theorem forks_fork_wait (c : List ChildCall) :
    forks [ParentCall.fork c, ParentCall.wait_null] = [c] := rfl

theorem forks_fork (c : List ChildCall) : forks [ParentCall.fork c] = [c] := rfl

/-- The child of a redirected command, on the token list `t` stripped of its `&`. -/
theorem redirect_child_eq {α : Type} (str : α → List Char) (env : Env) (cmd : List α)
    (op file : α) (rest : List (Option α)) (hcmd : cmd ≠ [])
    (hop : str op = ['>'] ∨ str op = ['<'])
    (hopen : env.open_ok (some (str file)) = true) (t : List (List Char))
    (ht : t = (cmd ++ [op, file]).map str) :
    single_child str env (args_of (cmd ++ [op, file]) rest) (cmd ++ [op, file]).length
      = [ChildCall.openFile (t.get? (t.length - 1))
            (if t.get? (t.length - 2) = some ['>'] then OpenHow.wronly_creat
              else OpenHow.rdonly),
          ChildCall.dup2 Fd.opened
            (if t.get? (t.length - 2) = some ['>'] then Fd.stdout_fileno
              else Fd.stdin_fileno),
          ChildCall.close Fd.opened,
          ChildCall.execvp t.head? (t.take (t.length - 2))] ++
          (if env.exec_ok t.head? = true then []
            else [ChildCall.perror, ChildCall.exit_failure]) := by
  obtain ⟨h2, h1, h3, h4⟩ := redirect_shape str cmd op file
  subst ht
  rw [single_child_redirect str env cmd op file rest hop, if_pos hopen, h2, h1, h3, h4 hcmd,
    exec_call_eq]
  simp

/-- C6. For every token list with no `|` whose length `n`, once a trailing `&` is
stripped, is at least 3 and whose token `n-2` is `>` or `<`, when `fork` and `open`
succeed: `execution` creates one child, which opens the file named by token `n-1`
(write-only with create for `>`, read-only for `<`), duplicates the descriptor onto
standard output for `>` or standard input for `<`, closes it, and then calls `execvp`
on the first token with exactly the tokens `[0, n-2)` as argument list. -/
theorem redirection_applier {α : Type} (str : α → List Char) (env : Env) (ps : List α)
    (rest : List (Option α)) (t : List (List Char))
    (ht : t = strip_ampersand (ps.map str))
    (hpipe : ∀ x ∈ ps.map str, x ≠ ['|'])
    (hn : 3 ≤ t.length)
    (hop : t.get? (t.length - 2) = some ['>'] ∨ t.get? (t.length - 2) = some ['<'])
    (hfork : env.fork_ok 0 = true)
    (hopen : env.open_ok (t.get? (t.length - 1)) = true) :
    ∃ r, execution str env (args_of ps rest) ps.length = some r ∧
      forks r.trace =
        [[ChildCall.openFile (t.get? (t.length - 1))
            (if t.get? (t.length - 2) = some ['>'] then OpenHow.wronly_creat
              else OpenHow.rdonly),
          ChildCall.dup2 Fd.opened
            (if t.get? (t.length - 2) = some ['>'] then Fd.stdout_fileno
              else Fd.stdin_fileno),
          ChildCall.close Fd.opened,
          ChildCall.execvp t.head? (t.take (t.length - 2))] ++
          (if env.exec_ok t.head? = true then []
            else [ChildCall.perror, ChildCall.exit_failure])] := by
  have hpipe1 : ∀ p ∈ ps, str p ≠ ['|'] := fun p hp => hpipe _ (List.mem_map_of_mem _ hp)
  rcases strip_ampersand_cases str ps with ⟨init, last, rfl, hlast, hstrip⟩ | ⟨hstrip, hno⟩
  · -- a trailing `&` is stripped
    rw [hstrip] at ht
    have hlen : 2 ≤ init.length := by rw [ht] at hn; simp at hn; omega
    obtain ⟨cmd, op, file, rfl⟩ := two_last init hlen
    have hcmd : cmd ≠ [] := by
      rintro rfl
      rw [ht] at hn
      simp at hn
    obtain ⟨h2, h1, -, -⟩ := redirect_shape str cmd op file
    rw [← ht] at h2 h1
    rw [h2] at hop
    rw [h1] at hopen
    have hop1 : str op = ['>'] ∨ str op = ['<'] := by
      rcases hop with h | h
      · exact Or.inl (Option.some.inj h)
      · exact Or.inr (Option.some.inj h)
    obtain ⟨r, hexec, -, -, hamp, -⟩ := execution_single str env (cmd ++ [op, file]) last rest
      hpipe1 hfork
    obtain ⟨htrace, -⟩ := hamp hlast
    refine ⟨r, hexec, ?_⟩
    rw [htrace, forks_fork_wait,
      redirect_child_eq str env cmd op file (none :: rest) hcmd hop1 hopen t ht]
  · -- no trailing `&`
    rw [hstrip] at ht
    have hlen : 2 ≤ ps.length := by rw [ht] at hn; simp at hn; omega
    obtain ⟨cmd, op, file, rfl⟩ := two_last ps hlen
    have hcmd : cmd ≠ [] := by
      rintro rfl
      rw [ht] at hn
      simp at hn
    obtain ⟨h2, h1, -, -⟩ := redirect_shape str cmd op file
    rw [← ht] at h2 h1
    rw [h2] at hop
    rw [h1] at hopen
    have hop1 : str op = ['>'] ∨ str op = ['<'] := by
      rcases hop with h | h
      · exact Or.inl (Option.some.inj h)
      · exact Or.inr (Option.some.inj h)
    have hsplit : cmd ++ [op, file] = (cmd ++ [op]) ++ [file] := by simp
    have hfile : str file ≠ ['&'] := hno (cmd ++ [op]) file hsplit
    obtain ⟨r, hexec, -, -, -, hplain⟩ := execution_single str env (cmd ++ [op]) file rest
      (by rw [← hsplit]; exact hpipe1) hfork
    obtain ⟨htrace, -⟩ := hplain hfile
    rw [← hsplit] at hexec htrace
    refine ⟨r, hexec, ?_⟩
    rw [htrace, forks_fork,
      redirect_child_eq str env cmd op file rest hcmd hop1 hopen t ht]

theorem redirection_applier_witness :
    (∀ x ∈ [['l', 's'], ['-', 'l'], ['>'], ['o', 'u', 't'], ['&']].map id, x ≠ ['|']) ∧
    3 ≤ [['l', 's'], ['-', 'l'], ['>'], ['o', 'u', 't']].length ∧
    ∃ r, execution id Env.allOk
        (args_of [['l', 's'], ['-', 'l'], ['>'], ['o', 'u', 't'], ['&']] []) 5 = some r ∧
      forks r.trace =
        [[ChildCall.openFile (some ['o', 'u', 't']) OpenHow.wronly_creat,
          ChildCall.dup2 Fd.opened Fd.stdout_fileno,
          ChildCall.close Fd.opened,
          ChildCall.execvp (some ['l', 's']) [['l', 's'], ['-', 'l']]]] :=
  ⟨by decide, by decide,
    redirection_applier id Env.allOk [['l', 's'], ['-', 'l'], ['>'], ['o', 'u', 't'], ['&']] []
      [['l', 's'], ['-', 'l'], ['>'], ['o', 'u', 't']] (by decide) (by decide) (by decide)
      (by decide) rfl rfl⟩

/-! ## The claim about operators reaching `execvp` -/

theorem mem_exec_argvs (tr : List ParentCall) (argv : List (List Char)) :
    argv ∈ exec_argvs tr ↔ ∃ c ∈ forks tr, argv ∈ child_argvs c := by
  induction tr with
  | nil => simp [exec_argvs, forks]
  | cons e es ih =>
    cases e <;> simp [exec_argvs, forks, ih]

theorem child_argvs_exec_call (env : Env) (file : Option (List Char))
    (argv : List (List Char)) : child_argvs (exec_call env file argv) = [argv] := by
  rw [exec_call_eq]
  split <;> rfl

/-- The single-command branch of `execution` for any answer of `fork`: every child
created is the one `single_child` describes. -/
theorem execution_single_forks {α : Type} (str : α → List Char) (env : Env) (init : List α)
    (last : α) (rest : List (Option α)) (hpipe : ∀ p ∈ init ++ [last], str p ≠ ['|']) :
    ∃ r, execution str env (args_of (init ++ [last]) rest) (init ++ [last]).length = some r ∧
      ∀ c ∈ forks r.trace,
        (str last = ['&'] ∧ c = single_child str env (args_of init (none :: rest)) init.length) ∨
        (str last ≠ ['&'] ∧ c = single_child str env (args_of (init ++ [last]) rest)
          (init ++ [last]).length) := by
  by_cases hfork : env.fork_ok 0 = true
  · obtain ⟨r, hexec, -, -, hamp, hplain⟩ := execution_single str env init last rest hpipe hfork
    refine ⟨r, hexec, ?_⟩
    intro c hc
    by_cases h : str last = ['&']
    · rw [(hamp h).1, forks_fork_wait, List.mem_singleton] at hc
      exact Or.inl ⟨h, hc⟩
    · rw [(hplain h).1, forks_fork, List.mem_singleton] at hc
      exact Or.inr ⟨h, hc⟩
  · obtain ⟨p, tl, hshape⟩ := args_of_ne_nil (init ++ [last]) rest (by simp)
    have hpc : pipe_check str (args_of (init ++ [last]) rest) (init ++ [last]).length
        = some (-1) := by
      unfold pipe_check
      rw [if_neg (by simp)]
      exact pipe_check_from_no_pipe str _ rest 0 hpipe
    have hread := readAt_pred_last init last rest
    have hexec : ∃ a b, execution str env (args_of (init ++ [last]) rest)
        (init ++ [last]).length
        = some { trace := [ParentCall.perror, ParentCall.exit_failure], args := a,
                 ampersand := b, running := false } := by
      unfold execution
      rw [hshape] at hpc hread ⊢
      simp only [hpc, hread, hfork]
      simp
    obtain ⟨a, b, hexec⟩ := hexec
    refine ⟨_, hexec, ?_⟩
    intro c hc
    simp [forks] at hc

/-- Every argument list `pipe_communication` hands to `execvp` is one of its two
arrays read up to the first NULL. -/
theorem pipe_communication_argvs {α : Type} (str : α → List Char) (env : Env)
    (args : List (Option α)) (pidpipe : List (Option (List Char))) (ampersand : Bool)
    (argv : List (List Char))
    (h : argv ∈ exec_argvs (pipe_communication str env args pidpipe ampersand).1) :
    argv = argv_of str args ∨ argv = argv_of id pidpipe := by
  unfold pipe_communication at h
  by_cases hp : env.pipe_ok = true
  · by_cases h0 : env.fork_ok 0 = true
    · by_cases h1 : env.fork_ok 1 = true
      · simp only [hp, h0, h1, Bool.not_true, Bool.false_eq_true, if_false] at h
        cases ampersand <;>
          simpa [exec_argvs, child_argvs, child_argvs_exec_call] using h
      · simp only [hp, h0, h1, Bool.not_true, Bool.false_eq_true, if_false, Bool.not_false,
          if_true] at h
        left
        simpa [exec_argvs, child_argvs, child_argvs_exec_call] using h
    · simp only [hp, h0, Bool.not_true, Bool.false_eq_true, if_false, Bool.not_false,
        if_true] at h
      simp [exec_argvs] at h
  · simp only [hp, Bool.not_false, if_true] at h
    simp [exec_argvs] at h

theorem not_operator (x : List Char) :
    is_operator x = false ↔ x ≠ ['|'] ∧ x ≠ ['<'] ∧ x ≠ ['>'] := by
  simp [is_operator, and_assoc]

theorem execution_no_token {α : Type} (str : α → List Char) (env : Env)
    (rest : List (Option α)) :
    ∃ r, execution str env (args_of [] rest) ([] : List α).length = some r ∧
      no_operator_reaches_exec r.trace :=
  ⟨{ trace := [], args := args_of [] rest, ampersand := false, running := true }, rfl,
    fun _ h => absurd h (List.not_mem_nil _)⟩

/-- A token list without `|`, `<`, `>`: the argument list of the one child is the
token list, without its trailing `&`. -/
theorem no_operator_plain {α : Type} (str : α → List Char) (env : Env) (ps : List α)
    (rest : List (Option α)) (h : ∀ p ∈ ps, is_operator (str p) = false) :
    ∃ r, execution str env (args_of ps rest) ps.length = some r ∧
      no_operator_reaches_exec r.trace := by
  rcases List.eq_nil_or_concat ps with rfl | ⟨init, last, hps⟩
  · exact execution_no_token str env rest
  rw [List.concat_eq_append] at hps
  subst hps
  have hall : ∀ p ∈ init ++ [last], str p ≠ ['|'] ∧ str p ≠ ['<'] ∧ str p ≠ ['>'] :=
    fun p hp => (not_operator _).1 (h p hp)
  obtain ⟨r, hexec, hforks⟩ := execution_single_forks str env init last rest
    (fun p hp => (hall p hp).1)
  refine ⟨r, hexec, ?_⟩
  intro argv hargv x hx
  obtain ⟨c, hc, hmem⟩ := (mem_exec_argvs _ _).1 hargv
  rcases hforks c hc with ⟨-, rfl⟩ | ⟨-, rfl⟩
  · rw [single_child_plain str env init _
      (fun p hp => (hall p (List.mem_append_left _ hp)).2), child_argvs_exec_call,
      List.mem_singleton] at hmem
    subst hmem
    obtain ⟨p, hp, rfl⟩ := List.mem_map.1 hx
    exact h p (List.mem_append_left _ hp)
  · rw [single_child_plain str env (init ++ [last]) _ (fun p hp => (hall p hp).2),
      child_argvs_exec_call, List.mem_singleton] at hmem
    subst hmem
    obtain ⟨p, hp, rfl⟩ := List.mem_map.1 hx
    exact h p hp

/-- A token list with one `|`, not last, and no other operator: the two argument
lists are made of tokens on the left of `|` and of the tokens on its right. -/
theorem no_operator_pipeline {α : Type} (str : α → List Char) (env : Env) (l : List α)
    (q : α) (r : List α) (rest : List (Option α)) (hq : str q = ['|']) (hr : r ≠ [])
    (hl : ∀ p ∈ l, is_operator (str p) = false) (hrr : ∀ p ∈ r, is_operator (str p) = false) :
    ∃ res, execution str env (args_of (l ++ q :: r) rest) (l ++ q :: r).length = some res ∧
      no_operator_reaches_exec res.trace := by
  rcases List.eq_nil_or_concat r with rfl | ⟨rinit, rlast, hrs⟩
  · exact absurd rfl hr
  rw [List.concat_eq_append] at hrs
  subst hrs
  obtain ⟨res, args1, hexec, -, -, hargv, htrace, -⟩ := execution_pipeline str env l q rinit
    rlast rest (fun p hp => ((not_operator _).1 (hl p hp)).1) hq
  refine ⟨res, hexec, ?_⟩
  intro argv hmem x hx
  rw [htrace] at hmem
  rcases pipe_communication_argvs str env _ _ _ argv hmem with rfl | rfl
  · rw [hargv] at hx
    have hx1 : x ∈ l.map str := by
      split at hx
      · exact List.mem_of_mem_take hx
      · exact hx
    obtain ⟨p, hp, rfl⟩ := List.mem_map.1 hx1
    exact hl p hp
  · rw [argv_of_some_none] at hx
    obtain ⟨p, hp, rfl⟩ := List.mem_map.1 hx
    exact hrr p hp

/-- A token list `cmd ++ [op, file]`, possibly followed by `&`, with `op` one of `<`,
`>`: the argument list of the child, when it reaches `execvp`, is `cmd`. -/
theorem no_operator_redirect {α : Type} (str : α → List Char) (env : Env) (cmd : List α)
    (op file : α) (tail : List α) (rest : List (Option α))
    (hop : str op = ['<'] ∨ str op = ['>'])
    (hcmd : ∀ p ∈ cmd, is_operator (str p) = false) (hfile : is_operator (str file) = false)
    (htail : (tail = [] ∧ str file ≠ ['&']) ∨ ∃ a, tail = [a] ∧ str a = ['&']) :
    ∃ res, execution str env (args_of (cmd ++ [op, file] ++ tail) rest)
        (cmd ++ [op, file] ++ tail).length = some res ∧
      no_operator_reaches_exec res.trace := by
  have hnp : ∀ p ∈ cmd ++ [op, file], str p ≠ ['|'] := by
    intro p hp
    rcases List.mem_append.1 hp with hp | hp
    · exact ((not_operator _).1 (hcmd p hp)).1
    · simp only [List.mem_cons, List.mem_singleton, List.not_mem_nil, or_false] at hp
      rcases hp with rfl | rfl
      · rcases hop with h | h <;> rw [h] <;> decide
      · exact ((not_operator _).1 hfile).1
  have hop1 : str op = ['>'] ∨ str op = ['<'] := hop.symm
  have hchild : ∀ rest1 : List (Option α), ∀ argv ∈ child_argvs
      (single_child str env (args_of (cmd ++ [op, file]) rest1) (cmd ++ [op, file]).length),
      ∀ x ∈ argv, is_operator x = false := by
    intro rest1 argv hargv x hx
    rw [single_child_redirect str env cmd op file rest1 hop1] at hargv
    split at hargv
    · have hc : child_argvs ([ChildCall.openFile (some (str file))
            (if str op = ['>'] then OpenHow.wronly_creat else OpenHow.rdonly),
          ChildCall.dup2 Fd.opened
            (if str op = ['>'] then Fd.stdout_fileno else Fd.stdin_fileno),
          ChildCall.close Fd.opened] ++ exec_call env (cmd.head?.map str) (cmd.map str))
          = [cmd.map str] := by
        show child_argvs (exec_call env (cmd.head?.map str) (cmd.map str)) = _
        exact child_argvs_exec_call _ _ _
      rw [hc, List.mem_singleton] at hargv
      subst hargv
      obtain ⟨p, hp, rfl⟩ := List.mem_map.1 hx
      exact hcmd p hp
    · simp [child_argvs] at hargv
  rcases htail with ⟨rfl, hf⟩ | ⟨a, rfl, ha⟩
  · rw [List.append_nil]
    have hsplit : cmd ++ [op, file] = (cmd ++ [op]) ++ [file] := by simp
    obtain ⟨res, hexec, hforks⟩ := execution_single_forks str env (cmd ++ [op]) file rest
      (by rw [← hsplit]; exact hnp)
    rw [← hsplit] at hexec hforks
    refine ⟨res, hexec, ?_⟩
    intro argv hargv x hx
    obtain ⟨c, hc, hmem⟩ := (mem_exec_argvs _ _).1 hargv
    rcases hforks c hc with ⟨h, -⟩ | ⟨-, rfl⟩
    · exact absurd h hf
    · exact hchild rest argv hmem x hx
  · obtain ⟨res, hexec, hforks⟩ := execution_single_forks str env (cmd ++ [op, file]) a rest
      (by
        intro p hp
        rcases List.mem_append.1 hp with hp | hp
        · exact hnp p hp
        · rw [List.mem_singleton.1 hp, ha]; decide)
    refine ⟨res, hexec, ?_⟩
    intro argv hargv x hx
    obtain ⟨c, hc, hmem⟩ := (mem_exec_argvs _ _).1 hargv
    rcases hforks c hc with ⟨-, rfl⟩ | ⟨h, -⟩
    · exact hchild (none :: rest) argv hmem x hx
    · exact absurd ha h

theorem map_eq_two_last {α β : Type} (f : α → β) (xs : List α) (cmd : List β) (op file : β)
    (h : xs.map f = cmd ++ [op, file]) :
    ∃ c a b, xs = c ++ [a, b] ∧ c.map f = cmd ∧ f a = op ∧ f b = file := by
  obtain ⟨c, s, rfl, hc, hs⟩ := List.map_eq_append_iff.1 h
  obtain ⟨a, s1, rfl, ha, hs1⟩ := List.map_eq_cons_iff.1 hs
  obtain ⟨b, s2, rfl, hb, hs2⟩ := List.map_eq_cons_iff.1 hs1
  have : s2 = [] := List.map_eq_nil_iff.1 hs2
  subst this
  exact ⟨c, a, b, rfl, hc, ha, hb⟩

/-- C5, as stated, fails: in `ls > out extra` the operator is not the token before the
last one and reaches `execvp`; in `a | b | c` the second `|` reaches `execvp`. -/
theorem operator_reaches_exec :
    (main_iteration Env.allOk ShellState.init
        ['l', 's', ' ', '>', ' ', 'o', 'u', 't', ' ', 'e', 'x', 't', 'r', 'a', '\n']).map
        (fun it => exec_argvs it.trace)
      = some [[['l', 's'], ['>'], ['o', 'u', 't'], ['e', 'x', 't', 'r', 'a']]] ∧
    (main_iteration Env.allOk ShellState.init
        ['a', ' ', '|', ' ', 'b', ' ', '|', ' ', 'c', '\n']).map
        (fun it => exec_argvs it.trace)
      = some [[['a']], [['b'], ['|'], ['c']]] ∧
    is_operator ['>'] = true ∧ is_operator ['|'] = true := by
  decide

/-- C5, amended.  For every token list in which `|`, `<`, `>` are placed as the program
expects (none at all; or one `|`, not last, and nothing else; or one `<` or `>` as
the token before the last one once a trailing `&` is stripped, and nothing else),
`execution` returns and no argument list it hands to `execvp`, in single-command
mode or for either side of a pipeline, contains `|`, `<` or `>`. -/
theorem placed_directive_consumed {α : Type} (str : α → List Char) (env : Env) (ps : List α)
    (rest : List (Option α)) (h : directive_placed (ps.map str)) :
    ∃ r, execution str env (args_of ps rest) ps.length = some r ∧
      no_operator_reaches_exec r.trace := by
  rcases h with ha | ⟨l, r, hsplit, hr, hl, hrr⟩ | ⟨cmd, op, file, hstrip, hop, hcmd, hfile⟩
  · exact no_operator_plain str env ps rest (fun p hp => ha _ (List.mem_map_of_mem _ hp))
  · obtain ⟨lp, s, rfl, hlp, hs⟩ := List.map_eq_append_iff.1 hsplit
    obtain ⟨q, rp, rfl, hq, hrp⟩ := List.map_eq_cons_iff.1 hs
    subst hlp hrp
    exact no_operator_pipeline str env lp q rp rest hq (by simpa using hr)
      (fun p hp => hl _ (List.mem_map_of_mem _ hp))
      (fun p hp => hrr _ (List.mem_map_of_mem _ hp))
  · rcases strip_ampersand_cases str ps with ⟨init, last, rfl, hlast, hs⟩ | ⟨hs, hno⟩
    · rw [hs] at hstrip
      obtain ⟨c, a, b, rfl, hc, ha, hb⟩ := map_eq_two_last str init cmd op file hstrip
      subst hc ha hb
      exact no_operator_redirect str env c a b [last] rest hop
        (fun p hp => hcmd _ (List.mem_map_of_mem _ hp)) hfile (Or.inr ⟨last, rfl, hlast⟩)
    · rw [hs] at hstrip
      obtain ⟨c, a, b, rfl, hc, ha, hb⟩ := map_eq_two_last str ps cmd op file hstrip
      subst hc ha hb
      have hsplit : c ++ [a, b] = (c ++ [a]) ++ [b] := by simp
      have := no_operator_redirect str env c a b [] rest hop
        (fun p hp => hcmd _ (List.mem_map_of_mem _ hp)) hfile
        (Or.inl ⟨rfl, hno (c ++ [a]) b hsplit⟩)
      simpa using this

theorem placed_directive_consumed_witness :
    directive_placed ([['l', 's'], ['|'], ['w', 'c'], ['-', 'l']].map id) ∧
    ∃ r, execution id Env.allOk (args_of [['l', 's'], ['|'], ['w', 'c'], ['-', 'l']] [])
        [['l', 's'], ['|'], ['w', 'c'], ['-', 'l']].length = some r ∧
      no_operator_reaches_exec r.trace :=
  ⟨Or.inr (Or.inl ⟨[['l', 's']], [['w', 'c'], ['-', 'l']], rfl, by decide, by decide,
      by decide⟩),
    placed_directive_consumed id Env.allOk [['l', 's'], ['|'], ['w', 'c'], ['-', 'l']] []
      (Or.inr (Or.inl ⟨[['l', 's']], [['w', 'c'], ['-', 'l']], rfl, by decide, by decide,
        by decide⟩))⟩

/-! ## The claim about the waits of pipeline mode -/

end Shell
